import Mathlib

/-!
Verification of the photohaven-selfbooth orchestration engine.

This file shallowly embeds the parts of the repository that the verified
properties speak about: the per-session admission counter
(`src/processing_counter.py`), the per-key debounce coalescers
(`src/folder_watcher.py`), the first-child escalation handler, the retention
sweeper (`src/cleanup_old_images.py`), the round-trip collector
(`src/lightroom_destination_watcher.py`) and the dispatch step of
`FolderWatcher._process_image`.  Python dicts are modelled as association
lists with dict insertion-order semantics (overwrite in place, new keys
appended); times are integers; filesystem and logging effects are modelled
explicitly where a claim depends on them and dropped where they are pure
logging.
-/

namespace PhotoHaven

/-! ## Association-list helpers (Python `dict` semantics) -/

/-- Lookup in an association list (first binding wins, as in a dict). -/
def alget {α : Type} (l : List (String × α)) (k : String) : Option α :=
  match l with
  | [] => none
  | (k', v) :: rest => if k' = k then some v else alget rest k

/-- `d[k] = v`: overwrite in place if present, else append (dict insertion
order). -/
def alset {α : Type} (l : List (String × α)) (k : String) (v : α) :
    List (String × α) :=
  match l with
  | [] => [(k, v)]
  | (k', v') :: rest => if k' = k then (k, v) :: rest else (k', v') :: alset rest k v

/-- `del d[k]`. -/
def alerase {α : Type} (l : List (String × α)) (k : String) :
    List (String × α) :=
  l.filter (fun p => p.1 ≠ k)

theorem alget_alset_self {α : Type} (l : List (String × α)) (k : String) (v : α) :
    alget (alset l k v) k = some v := by
  induction l with
  | nil => simp [alset, alget]
  | cons p rest ih =>
    by_cases h : p.1 = k
    · simp [alset, alget, h]
    · simp [alset, alget, h, ih]

theorem alget_alset_other {α : Type} (l : List (String × α)) (k k' : String)
    (v : α) (hne : k ≠ k') : alget (alset l k v) k' = alget l k' := by
  induction l with
  | nil => simp [alset, alget, hne]
  | cons p rest ih =>
    by_cases h : p.1 = k
    · simp [alset, alget, h, hne]
    · simp [alset, alget, h, ih]

theorem alget_alerase_self {α : Type} (l : List (String × α)) (k : String) :
    alget (alerase l k) k = none := by
  induction l with
  | nil => simp [alerase, alget]
  | cons p rest ih =>
    by_cases h : p.1 = k
    · simpa [alerase, alget, h] using ih
    · simpa [alerase, alget, h] using ih

theorem alget_alerase_other {α : Type} (l : List (String × α)) (k k' : String)
    (hne : k ≠ k') : alget (alerase l k) k' = alget l k' := by
  induction l with
  | nil => simp [alerase, alget]
  | cons p rest ih =>
    by_cases h : p.1 = k
    · have hskip : alerase (p :: rest) k = alerase rest k := by
        simp [alerase, h]
      have hk' : p.1 ≠ k' := by rw [h]; exact hne
      rw [hskip, ih]
      simp [alget, hk']
    · have hkeep : alerase (p :: rest) k = p :: alerase rest k := by
        simp [alerase, h]
      rw [hkeep]
      simp [alget, ih]

theorem alerase_of_not_mem {α : Type} (l : List (String × α)) (k : String)
    (h : alget l k = none) : alerase l k = l := by
  induction l with
  | nil => simp [alerase]
  | cons p rest ih =>
    by_cases hp : p.1 = k
    · simp [alget, hp] at h
    · simp [alget, hp] at h
      simp [alerase, hp] at ih ⊢
      exact ih h

theorem alerase_idem {α : Type} (l : List (String × α)) (k : String) :
    alerase (alerase l k) k = alerase l k := by
  simp [alerase, List.filter_filter]

/-! ## `ProcessingCounter` (src/processing_counter.py)

A queued work item `(folder_path, folder_name, image_path)`. -/

structure QueueItem where
  folderPath : String
  folderName : String
  imagePath : String
deriving DecidableEq, Repr

/-- The state of a `ProcessingCounter`: the threshold, the per-folder
counters and the per-folder pending queues.  The `Lock` only serialises the
methods; each method below is one critical section. -/
structure CounterState where
  threshold : Nat
  counters : List (String × Nat)
  pending_queues : List (String × List QueueItem)
deriving DecidableEq, Repr

/-- `ProcessingCounter.__init__`. -/
def CounterState.init (threshold : Nat) : CounterState :=
  { threshold := threshold, counters := [], pending_queues := [] }

/-- `ProcessingCounter.increment`: lazily create the entry at 0, add one,
return the new state and the new count. -/
def increment (st : CounterState) (folder_name : String) :
    CounterState × Nat :=
  let cs :=
    match alget st.counters folder_name with
    | none => alset st.counters folder_name 0
    | some _ => st.counters
  let count := (alget cs folder_name).getD 0 + 1
  ({ st with counters := alset cs folder_name count }, count)

/-- `ProcessingCounter.decrement`: unknown folders are only a logged
warning and return 0; a counter at 0 is left at 0 (logged warning); the
pending-queue inspection at the end of the method only logs.  The counter
value is stored as a `Nat` because the method never drives it below 0. -/
def decrement (st : CounterState) (folder_name : String) :
    CounterState × Nat :=
  match alget st.counters folder_name with
  | none => (st, 0)
  | some v =>
    let cs := if 0 < v then alset st.counters folder_name (v - 1) else st.counters
    let count := (alget cs folder_name).getD 0
    ({ st with counters := cs }, count)

/-- `ProcessingCounter.can_process`: lazily create the entry at 0, then
compare with the threshold. -/
def can_process (st : CounterState) (folder_name : String) :
    CounterState × Bool :=
  let cs :=
    match alget st.counters folder_name with
    | none => alset st.counters folder_name 0
    | some _ => st.counters
  ({ st with counters := cs },
    decide ((alget cs folder_name).getD 0 < st.threshold))

/-- `ProcessingCounter.get_count`. -/
def get_count (st : CounterState) (folder_name : String) : Nat :=
  (alget st.counters folder_name).getD 0

/-- `ProcessingCounter.add_pending`. -/
def add_pending (st : CounterState) (folder_name : String) (item : QueueItem) :
    CounterState :=
  let q := (alget st.pending_queues folder_name).getD []
  { st with pending_queues := alset st.pending_queues folder_name (q ++ [item]) }

/-- `ProcessingCounter.get_pending`: pop from the left of the deque, `none`
if the queue is absent or empty. -/
def get_pending (st : CounterState) (folder_name : String) :
    CounterState × Option QueueItem :=
  match alget st.pending_queues folder_name with
  | none => (st, none)
  | some [] => (st, none)
  | some (it :: rest) =>
    ({ st with pending_queues := alset st.pending_queues folder_name rest }, some it)

/-- `ProcessingCounter.has_pending`. -/
def has_pending (st : CounterState) (folder_name : String) : Bool :=
  match alget st.pending_queues folder_name with
  | none => false
  | some q => decide (0 < q.length)

/-- `ProcessingCounter.remove_folder`: drop the counter entry and the
pending queue of the folder (both only when present; losses are only
logged). -/
def remove_folder (st : CounterState) (folder_name : String) : CounterState :=
  { st with
    counters := alerase st.counters folder_name,
    pending_queues := alerase st.pending_queues folder_name }

/-! ## Basic counter lemmas -/

theorem get_count_can_process (st : CounterState) (fn id : String) :
    get_count (can_process st fn).1 id = get_count st id := by
  unfold can_process get_count
  cases h : alget st.counters fn with
  | some v => simp
  | none =>
    by_cases hid : fn = id
    · subst hid; simp [alget_alset_self, h]
    · simp [alget_alset_other _ _ _ _ hid]

theorem can_process_snd (st : CounterState) (fn : String) :
    (can_process st fn).2 = decide (get_count st fn < st.threshold) := by
  unfold can_process get_count
  cases h : alget st.counters fn with
  | some v => simp [h]
  | none => simp [alget_alset_self, h]

theorem can_process_threshold (st : CounterState) (fn : String) :
    (can_process st fn).1.threshold = st.threshold := by
  unfold can_process; rfl

theorem get_count_increment_self (st : CounterState) (fn : String) :
    get_count (increment st fn).1 fn = get_count st fn + 1 := by
  unfold increment get_count
  cases h : alget st.counters fn with
  | some v => simp [h, alget_alset_self]
  | none => simp [h, alget_alset_self]

theorem get_count_increment_other (st : CounterState) (fn id : String)
    (hid : fn ≠ id) : get_count (increment st fn).1 id = get_count st id := by
  unfold increment get_count
  cases h : alget st.counters fn with
  | some v => simp [h, alget_alset_other _ _ _ _ hid]
  | none =>
    simp [h, alget_alset_other _ _ _ _ hid]

theorem increment_threshold (st : CounterState) (fn : String) :
    (increment st fn).1.threshold = st.threshold := by
  unfold increment; rfl

theorem get_count_decrement_le (st : CounterState) (fn id : String) :
    get_count (decrement st fn).1 id ≤ get_count st id := by
  unfold decrement get_count
  cases h : alget st.counters fn with
  | none => simp
  | some v =>
    by_cases hv : 0 < v
    · by_cases hid : fn = id
      · subst hid; simp [hv, alget_alset_self, h]
      · simp [hv, alget_alset_other _ _ _ _ hid]
    · simp [hv]

theorem decrement_threshold (st : CounterState) (fn : String) :
    (decrement st fn).1.threshold = st.threshold := by
  unfold decrement
  cases h : alget st.counters fn with
  | none => rfl
  | some v => rfl

theorem get_count_add_pending (st : CounterState) (fn id : String)
    (it : QueueItem) : get_count (add_pending st fn it) id = get_count st id := rfl

theorem get_count_get_pending (st : CounterState) (fn id : String) :
    get_count (get_pending st fn).1 id = get_count st id := by
  unfold get_pending
  cases h : alget st.pending_queues fn with
  | none => rfl
  | some q => cases q with
    | nil => rfl
    | cons it rest => rfl

theorem get_pending_threshold (st : CounterState) (fn : String) :
    (get_pending st fn).1.threshold = st.threshold := by
  unfold get_pending
  cases h : alget st.pending_queues fn with
  | none => rfl
  | some q => cases q with
    | nil => rfl
    | cons it rest => rfl

theorem get_count_remove_folder (st : CounterState) (fn id : String) :
    get_count (remove_folder st fn) id =
      if fn = id then 0 else get_count st id := by
  unfold remove_folder get_count
  by_cases hid : fn = id
  · subst hid; simp [alget_alerase_self]
  · simp [hid, alget_alerase_other _ _ _ hid]

/-! ## Admission-control traces (C1)

The operations the rest of the engine performs against the shared
`ProcessingCounter`, each one method call (or, for `dispatch`/`drain`, the
guarded check-then-act sequence performed by
`FolderWatcher._image_processing_worker` / `_process_pending_items`, in
which `increment` is reached only when `can_process` just returned `True`
and the handoff copy succeeded). -/

inductive COp where
  | dispatch (folder_name : String) (item : QueueItem) (sinkOk : Bool)
  | drain (folder_name : String) (sinkOk : Bool)
  | ret (folder_name : String)
  | check (folder_name : String)
  | pend (folder_name : String) (item : QueueItem)
  | release (folder_name : String)
deriving Repr

/-- One admission-controller step. `dispatch` mirrors
`_image_processing_worker`: on `can_process = False` the item goes to the
pending queue; otherwise `_process_image` runs and calls `increment` only
if the copy to the sink folder succeeded.  `drain` mirrors one iteration of
`_process_pending_items`.  `ret` is the round-trip `decrement`, `release`
is `remove_folder` on session teardown. -/
def cstep (st : CounterState) : COp → CounterState
  | .dispatch fn it ok =>
    let r := can_process st fn
    if r.2 then (if ok then (increment r.1 fn).1 else r.1)
    else add_pending r.1 fn it
  | .drain fn ok =>
    let r := can_process st fn
    if r.2 then
      match get_pending r.1 fn with
      | (st2, some _) => if ok then (increment st2 fn).1 else st2
      | (st2, none) => st2
    else r.1
  | .ret fn => (decrement st fn).1
  | .check fn => (can_process st fn).1
  | .pend fn it => add_pending st fn it
  | .release fn => remove_folder st fn

/-- Run a sequence of admission-controller operations. -/
def crun (st : CounterState) (ops : List COp) : CounterState :=
  ops.foldl cstep st

/-- The invariant: every session's admission counter is at most the
threshold. -/
def AdmissionOK (st : CounterState) : Prop :=
  ∀ id, get_count st id ≤ st.threshold

theorem cstep_threshold (st : CounterState) (op : COp) :
    (cstep st op).threshold = st.threshold := by
  cases op with
  | dispatch fn it ok =>
    simp only [cstep]
    by_cases h : (can_process st fn).2
    · by_cases hok : ok <;>
        simp [h, hok, increment_threshold, can_process_threshold]
    · simp [h, add_pending, can_process_threshold]
  | drain fn ok =>
    simp only [cstep]
    by_cases h : (can_process st fn).2
    · simp only [h, if_pos]
      rcases hp : get_pending (can_process st fn).1 fn with ⟨st2, it⟩
      have h2 : st2.threshold = st.threshold := by
        have := get_pending_threshold (can_process st fn).1 fn
        rw [hp] at this
        rw [this, can_process_threshold]
      cases it with
      | none => simpa [hp] using h2
      | some x =>
        by_cases hok : ok <;> simp [hp, hok, increment_threshold, h2]
    · simp [h, can_process_threshold]
  | ret fn => simpa using decrement_threshold st fn
  | check fn => simpa using can_process_threshold st fn
  | pend fn it => rfl
  | release fn => rfl

theorem cstep_preserves_AdmissionOK (st : CounterState) (op : COp)
    (h : AdmissionOK st) : AdmissionOK (cstep st op) := by
  intro id
  rw [cstep_threshold]
  cases op with
  | dispatch fn it ok =>
    simp only [cstep]
    by_cases hc : (can_process st fn).2
    · have hlt : get_count st fn < st.threshold := by
        rw [can_process_snd] at hc
        exact of_decide_eq_true hc
      by_cases hok : ok
      · simp only [hc, hok, if_pos, if_true]
        by_cases hid : fn = id
        · subst hid
          rw [get_count_increment_self, get_count_can_process]
          omega
        · rw [get_count_increment_other _ _ _ hid, get_count_can_process]
          exact h id
      · simp only [hc, hok, if_pos, if_false, Bool.false_eq_true]
        rw [get_count_can_process]; exact h id
    · simp only [hc, if_neg, Bool.false_eq_true, not_false_iff]
      rw [get_count_add_pending, get_count_can_process]
      exact h id
  | drain fn ok =>
    simp only [cstep]
    by_cases hc : (can_process st fn).2
    · have hlt : get_count st fn < st.threshold := by
        rw [can_process_snd] at hc
        exact of_decide_eq_true hc
      simp only [hc, if_pos]
      rcases hp : get_pending (can_process st fn).1 fn with ⟨st2, mit⟩
      have hcnt : ∀ j, get_count st2 j = get_count st j := by
        intro j
        have := get_count_get_pending (can_process st fn).1 fn j
        rw [hp] at this
        simpa [get_count_can_process] using this
      cases mit with
      | none => simpa [hp] using (hcnt id ▸ h id)
      | some x =>
        by_cases hok : ok
        · simp only [hp, hok, if_true]
          by_cases hid : fn = id
          · subst hid
            rw [get_count_increment_self, hcnt]
            omega
          · rw [get_count_increment_other _ _ _ hid, hcnt]
            exact h id
        · simp only [hp, hok, if_false, Bool.false_eq_true]
          rw [hcnt]; exact h id
    · simp only [hc, Bool.false_eq_true, if_neg, not_false_iff]
      rw [get_count_can_process]; exact h id
  | ret fn =>
    simp only [cstep]
    exact le_trans (get_count_decrement_le st fn id) (h id)
  | check fn =>
    simp only [cstep]
    rw [get_count_can_process]; exact h id
  | pend fn it =>
    simp only [cstep]
    rw [get_count_add_pending]; exact h id
  | release fn =>
    simp only [cstep]
    rw [get_count_remove_folder]
    by_cases hid : fn = id
    · simp [hid]
    · simp [hid]; exact h id

theorem crun_threshold (st : CounterState) (ops : List COp) :
    (crun st ops).threshold = st.threshold := by
  induction ops generalizing st with
  | nil => rfl
  | cons op rest ih =>
    simp only [crun, List.foldl_cons] at *
    rw [ih, cstep_threshold]

theorem crun_preserves_AdmissionOK (st : CounterState) (ops : List COp)
    (h : AdmissionOK st) : AdmissionOK (crun st ops) := by
  induction ops generalizing st with
  | nil => exact h
  | cons op rest ih =>
    simp only [crun, List.foldl_cons] at *
    exact ih _ (cstep_preserves_AdmissionOK st op h)

/-- **C1.** Starting from the empty counter state, after any sequence of
admission-controller operations in which `increment` is performed only
behind a successful `can_process` check (as `dispatch`/`drain` do), every
session's admission counter is at most the configured threshold — in
particular immediately after any `recordDispatch` (a run ending in a
`dispatch` op is one such run). -/
theorem admission_counter_le_threshold (t : Nat) (ops : List COp) (id : String) :
    get_count (crun (CounterState.init t) ops) id ≤ t := by
  have h0 : AdmissionOK (CounterState.init t) := by
    intro j; simp [CounterState.init, get_count, alget]
  have := crun_preserves_AdmissionOK (CounterState.init t) ops h0 id
  rwa [crun_threshold] at this

/-- `decrement` on an id with no counter entry returns 0 and changes
nothing. -/
theorem decrement_unknown (st : CounterState) (id : String)
    (h : alget st.counters id = none) : decrement st id = (st, 0) := by
  unfold decrement
  simp [h]

/-- **C2.** `decrement` returns the old count minus one floored at 0
(`Nat` subtraction), stores exactly that value back (so the counter never
goes negative and decrementing a 0 counter or an unknown id yields 0), and
on an unknown id it leaves the whole state unchanged (the anomaly is only
logged; no error is raised — the function is total). -/
theorem decrement_floors_at_zero (st : CounterState) (id : String) :
    (decrement st id).2 = get_count st id - 1 ∧
      get_count (decrement st id).1 id = get_count st id - 1 ∧
      (alget st.counters id = none → (decrement st id).1 = st) := by
  refine ⟨?_, ?_, ?_⟩
  · unfold decrement get_count
    cases h : alget st.counters id with
    | none => simp [h]
    | some v =>
      by_cases hv : 0 < v
      · simp [h, hv, alget_alset_self]
      · simp [h, hv]; omega
  · unfold decrement get_count
    cases h : alget st.counters id with
    | none => simp [h]
    | some v =>
      by_cases hv : 0 < v
      · simp [h, hv, alget_alset_self]
      · simp [h, hv]; omega
  · intro h
    unfold decrement
    simp [h]

/-- Witness for C2 at a concrete state: a counter at 2 decrements to 1,
and an unknown id leaves the state untouched. -/
theorem decrement_floors_at_zero_witness :
    (decrement { threshold := 5, counters := [("s", 2)], pending_queues := [] } "s").2 = 1 ∧
      (decrement (CounterState.init 5) "x").1 = CounterState.init 5 := by
  constructor
  · have h := (decrement_floors_at_zero
      { threshold := 5, counters := [("s", 2)], pending_queues := [] } "s").1
    rw [h]; rfl
  · exact (decrement_floors_at_zero (CounterState.init 5) "x").2.2 rfl

/-- **C10.** `remove_folder` is idempotent and total: a second call right
after the first changes nothing, and calling it on an id that is tracked
in neither map (never tracked) leaves the whole state unchanged — it never
raises. -/
theorem remove_folder_idempotent_total (st : CounterState) (id : String) :
    remove_folder (remove_folder st id) id = remove_folder st id ∧
      (alget st.counters id = none ∧ alget st.pending_queues id = none →
        remove_folder st id = st) := by
  constructor
  · unfold remove_folder
    simp [alerase_idem]
  · rintro ⟨h1, h2⟩
    unfold remove_folder
    rw [alerase_of_not_mem _ _ h1, alerase_of_not_mem _ _ h2]

/-- Witness for C10 at a concrete state: removing an untracked id from a
state that tracks another session is a double no-op. -/
theorem remove_folder_idempotent_total_witness :
    (remove_folder (remove_folder
        { threshold := 5, counters := [("s", 2)], pending_queues := [] } "x") "x" =
      remove_folder { threshold := 5, counters := [("s", 2)], pending_queues := [] } "x") ∧
      remove_folder { threshold := 5, counters := [("s", 2)], pending_queues := [] } "x" =
        { threshold := 5, counters := [("s", 2)], pending_queues := [] } := by
  refine ⟨(remove_folder_idempotent_total _ "x").1, ?_⟩
  exact (remove_folder_idempotent_total _ "x").2 ⟨by rfl, by rfl⟩

/-! ## Debounce coalescers (src/folder_watcher.py)

`ChildFolderImageHandler` and `FolderCreatedHandler` share the same
debounce-sweep loop; they differ in what an incoming event does to the
pending map.  `pending` models the `pending_files`/`pending_folders` dict
(`key -> timestamp`), `processed` the `processed_files`/`processed_folders`
set, and `emitted` the keys put on the shared queue, in order. -/

structure DebounceState where
  pending : List (String × Int)
  processed : List String
  emitted : List String
deriving DecidableEq, Repr

/-- One pending entry handled inside `_debounce_worker`'s loop body: if the
quiet period has elapsed, the key is deleted from the pending map and — if
not already in the processed set — added to it and enqueued. -/
def sweepStep (deb now : Int) (st : DebounceState) (q : String × Int) :
    DebounceState :=
  if deb ≤ now - q.2 then
    if q.1 ∈ st.processed then { st with pending := alerase st.pending q.1 }
    else { st with pending := alerase st.pending q.1,
                   processed := st.processed ++ [q.1],
                   emitted := st.emitted ++ [q.1] }
  else st

/-- One wake-up of `_debounce_worker`: iterate over a snapshot of the
pending map (`list(self.pending_files.items())`). -/
def sweepOnce (deb now : Int) (s : DebounceState) : DebounceState :=
  s.pending.foldl (sweepStep deb now) s

/-- `ChildFolderImageHandler.on_created` / `.on_moved` (after the
image-extension and watched-folder guards): skip keys already processed,
otherwise set/overwrite the pending timestamp. -/
def imgEvent (s : DebounceState) (key : String) (t : Int) : DebounceState :=
  if key ∈ s.processed then s
  else { s with pending := alset s.pending key t }

/-- `FolderCreatedHandler.on_created` / `.on_moved`: a key already pending
is also skipped (the timer is not reset). -/
def folderEvent (s : DebounceState) (key : String) (t : Int) : DebounceState :=
  if key ∈ s.processed ∨ (alget s.pending key).isSome then s
  else { s with pending := alset s.pending key t }

/-- `FolderCreatedHandler._check_for_new_folders`: the periodic
reconciliation re-lists the directory and feeds everything that is neither
processed nor pending into the same debounce path. -/
def reconcile (s : DebounceState) (found : List String) (t : Int) :
    DebounceState :=
  let newKeys := found.filter
    (fun f => f ∉ s.processed ∧ (alget s.pending f).isNone)
  { s with pending := newKeys.foldl (fun pd f => alset pd f t) s.pending }

/-! ### Generic sweep lemmas -/

theorem sweepStep_processed_mono (deb now : Int) (st : DebounceState)
    (q : String × Int) (a : String) (h : a ∈ st.processed) :
    a ∈ (sweepStep deb now st q).processed := by
  unfold sweepStep
  by_cases h1 : deb ≤ now - q.2
  · by_cases h2 : q.1 ∈ st.processed
    · simpa [h1, h2]
    · simp [h1, h2, h]
  · simpa [h1]

theorem sweepFold_processed_mono (deb now : Int) (l : List (String × Int))
    (st : DebounceState) (a : String) (h : a ∈ st.processed) :
    a ∈ (l.foldl (sweepStep deb now) st).processed := by
  induction l generalizing st with
  | nil => exact h
  | cons q rest ih =>
    exact ih _ (sweepStep_processed_mono deb now st q a h)

theorem sweepStep_count_of_processed (deb now : Int) (st : DebounceState)
    (q : String × Int) (p : String) (h : p ∈ st.processed) :
    List.count p (sweepStep deb now st q).emitted = List.count p st.emitted := by
  unfold sweepStep
  by_cases h1 : deb ≤ now - q.2
  · by_cases h2 : q.1 ∈ st.processed
    · simp [h1, h2]
    · have hne : q.1 ≠ p := fun he => h2 (he ▸ h)
      have hc : List.count p [q.1] = 0 :=
        List.count_eq_zero.mpr (by simpa using Ne.symm hne)
      simp [h1, h2, List.count_append, hc]
  · simp [h1]

theorem sweepFold_count_of_processed (deb now : Int) (l : List (String × Int))
    (st : DebounceState) (p : String) (h : p ∈ st.processed) :
    List.count p (l.foldl (sweepStep deb now) st).emitted =
      List.count p st.emitted := by
  induction l generalizing st with
  | nil => rfl
  | cons q rest ih =>
    rw [List.foldl_cons, ih _ (sweepStep_processed_mono deb now st q p h),
      sweepStep_count_of_processed deb now st q p h]

/-- The per-key once-only law of the sweep: the emitted count of `p`
matches whether `p` is in the processed set. -/
def CountLaw (p : String) (s : DebounceState) : Prop :=
  List.count p s.emitted = if p ∈ s.processed then 1 else 0

theorem sweepStep_CountLaw (deb now : Int) (st : DebounceState)
    (q : String × Int) (p : String) (h : CountLaw p st) :
    CountLaw p (sweepStep deb now st q) := by
  unfold CountLaw sweepStep at *
  by_cases h1 : deb ≤ now - q.2
  · by_cases h2 : q.1 ∈ st.processed
    · simpa [h1, h2]
    · by_cases hq : q.1 = p
      · subst hq
        have h0 : List.count q.1 st.emitted = 0 := by simpa [h2] using h
        simp [h1, h2, List.count_append, h0]
      · have hp' : p ∈ st.processed ++ [q.1] ↔ p ∈ st.processed := by
          simp [Ne.symm hq]
        have hc : List.count p [q.1] = 0 :=
          List.count_eq_zero.mpr (by simpa using Ne.symm hq)
        simp [h1, h2, List.count_append, hp', hc, h]
  · simpa [h1]

theorem sweepFold_CountLaw (deb now : Int) (l : List (String × Int))
    (st : DebounceState) (p : String) (h : CountLaw p st) :
    CountLaw p (l.foldl (sweepStep deb now) st) := by
  induction l generalizing st with
  | nil => exact h
  | cons q rest ih =>
    exact ih _ (sweepStep_CountLaw deb now st q p h)

theorem sweepStep_pending_other (deb now : Int) (st : DebounceState)
    (q : String × Int) (p : String) (hq : q.1 ≠ p) :
    alget (sweepStep deb now st q).pending p = alget st.pending p := by
  unfold sweepStep
  by_cases h1 : deb ≤ now - q.2
  · by_cases h2 : q.1 ∈ st.processed
    · simp [h1, h2, alget_alerase_other _ _ _ hq]
    · simp [h1, h2, alget_alerase_other _ _ _ hq]
  · simp [h1]

/-- If `p` has no entry in the iterated snapshot and is untracked in the
state, the sweep leaves it untracked. -/
theorem sweepFold_untracked (deb now : Int) (l : List (String × Int))
    (st : DebounceState) (p : String)
    (hl : ∀ ts, (p, ts) ∉ l)
    (h1 : p ∉ st.processed) (h2 : alget st.pending p = none) :
    p ∉ (l.foldl (sweepStep deb now) st).processed ∧
      alget (l.foldl (sweepStep deb now) st).pending p = none := by
  induction l generalizing st with
  | nil => exact ⟨h1, h2⟩
  | cons q rest ih =>
    have hq : q.1 ≠ p := by
      intro he
      exact hl q.2 (by simpa [← he] using List.mem_cons_self q rest)
    have hrest : ∀ ts, (p, ts) ∉ rest := fun ts hm => hl ts (List.mem_cons_of_mem q hm)
    rw [List.foldl_cons]
    refine ih _ hrest ?_ ?_
    · unfold sweepStep
      by_cases hr : deb ≤ now - q.2
      · by_cases hp2 : q.1 ∈ st.processed
        · simpa [hr, hp2]
        · simp [hr, hp2]
          exact ⟨h1, fun he => hq he.symm⟩
      · simpa [hr]
    · rwa [sweepStep_pending_other deb now st q p hq]

/-- If `p` is unprocessed and some pending entry for it is ripe, the sweep
puts `p` into the processed set. -/
theorem sweepFold_emits (deb now : Int) (l : List (String × Int))
    (st : DebounceState) (p : String) (ts : Int)
    (hmem : (p, ts) ∈ l) (hripe : deb ≤ now - ts) :
    p ∈ (l.foldl (sweepStep deb now) st).processed := by
  induction l generalizing st with
  | nil => cases hmem
  | cons q rest ih =>
    rw [List.foldl_cons]
    rcases List.mem_cons.mp hmem with hq | hrest
    · subst hq
      by_cases hp : p ∈ st.processed
      · exact sweepFold_processed_mono deb now rest _ p
          (sweepStep_processed_mono deb now st (p, ts) p hp)
      · have : p ∈ (sweepStep deb now st (p, ts)).processed := by
          unfold sweepStep
          simp [hripe, hp]
        exact sweepFold_processed_mono deb now rest _ p this
    · exact ih _ hrest

theorem sweepStep_emitted_of_event (deb now : Int) (st : DebounceState)
    (q : String × Int) : (sweepStep deb now st q).emitted = st.emitted ∨
      (sweepStep deb now st q).emitted = st.emitted ++ [q.1] := by
  unfold sweepStep
  by_cases h1 : deb ≤ now - q.2
  · by_cases h2 : q.1 ∈ st.processed
    · left; simp [h1, h2]
    · right; simp [h1, h2]
  · left; simp [h1]

theorem alget_mem {α : Type} (l : List (String × α)) (k : String) (v : α)
    (h : alget l k = some v) : (k, v) ∈ l := by
  induction l with
  | nil => simp [alget] at h
  | cons q rest ih =>
    obtain ⟨a, b⟩ := q
    by_cases hk : a = k
    · subst hk
      simp [alget] at h
      subst h
      exact List.mem_cons_self _ _
    · simp [alget, hk] at h
      exact List.mem_cons_of_mem _ (ih h)

theorem alget_none_not_mem {α : Type} (l : List (String × α)) (k : String)
    (h : alget l k = none) : ∀ v, (k, v) ∉ l := by
  intro v hm
  induction l with
  | nil => cases hm
  | cons q rest ih =>
    by_cases hk : q.1 = k
    · simp [alget, hk] at h
    · simp [alget, hk] at h
      rcases List.mem_cons.mp hm with he | hr
      · exact hk (by rw [← he])
      · exact ih h hr

/-! ### Image-handler traces (C3)

A trace interleaves `on_created`/`on_moved` callbacks (`ev`) with
wake-ups of `_debounce_worker` (`sw`), each stamped with the wall-clock
time at which it runs. -/

inductive IOp where
  | ev (key : String) (t : Int)
  | sw (t : Int)
deriving DecidableEq, Repr

def imgStep (deb : Int) (s : DebounceState) : IOp → DebounceState
  | .ev k t => imgEvent s k t
  | .sw t => sweepOnce deb t s

def imgRun (deb : Int) (s : DebounceState) (ops : List IOp) : DebounceState :=
  ops.foldl (imgStep deb) s

/-- The wall-clock time of an operation. -/
def opTime : IOp → Int
  | .ev _ t => t
  | .sw t => t

/-- The arrival times of the events for key `p`, in trace order. -/
def eventTimes (p : String) (ops : List IOp) : List Int :=
  ops.filterMap fun op => match op with
    | .ev k t => if k = p then some t else none
    | .sw _ => none

/-- `lastEventTime[key]` as the spec calls it: the timestamp of the latest
event for `p` in the trace, if any. -/
def tlAfter (p : String) (tl : Option Int) : IOp → Option Int
  | .ev k t => if k = p then some t else tl
  | .sw _ => tl

def lastEventTime (p : String) (ops : List IOp) : Option Int :=
  ops.foldl (tlAfter p) none

/-- The tracking invariant: either `p` has graduated to the processed set,
or its pending entry carries exactly the latest event time (`none`: no
event yet, so `p` is tracked nowhere). -/
def TrackInv (p : String) (tl : Option Int) (s : DebounceState) : Prop :=
  match tl with
  | none => p ∉ s.processed ∧ alget s.pending p = none
  | some t => p ∈ s.processed ∨ alget s.pending p = some t

theorem imgEvent_fields (s : DebounceState) (k : String) (t : Int) :
    (imgEvent s k t).processed = s.processed ∧
      (imgEvent s k t).emitted = s.emitted := by
  unfold imgEvent
  by_cases h : k ∈ s.processed <;> simp [h]

theorem imgEvent_inv (p k : String) (t : Int) (tl : Option Int)
    (s : DebounceState) (h : CountLaw p s ∧ TrackInv p tl s) :
    CountLaw p (imgEvent s k t) ∧
      TrackInv p (tlAfter p tl (.ev k t)) (imgEvent s k t) := by
  obtain ⟨hf1, hf2⟩ := imgEvent_fields s k t
  constructor
  · unfold CountLaw at *
    rw [hf1, hf2]; exact h.1
  · by_cases hk : k = p
    · subst hk
      by_cases hp : k ∈ s.processed
      · simp [TrackInv, tlAfter, imgEvent, hp]
      · simp [TrackInv, tlAfter, imgEvent, hp, alget_alset_self]
    · have halget : alget (imgEvent s k t).pending p = alget s.pending p := by
        unfold imgEvent
        by_cases hp : k ∈ s.processed
        · simp [hp]
        · simp [hp, alget_alset_other _ _ _ _ hk]
      unfold TrackInv tlAfter
      simp only [hk, if_false]
      cases tl with
      | none =>
        simp only []
        exact ⟨hf1 ▸ h.2.1, halget ▸ h.2.2⟩
      | some t' =>
        rcases h.2 with hl | hr
        · exact Or.inl (hf1 ▸ hl)
        · exact Or.inr (halget ▸ hr)

theorem sweepStep_track_some (deb now : Int) (st : DebounceState)
    (q : String × Int) (p : String) (t : Int)
    (h : p ∈ st.processed ∨ alget st.pending p = some t) :
    p ∈ (sweepStep deb now st q).processed ∨
      alget (sweepStep deb now st q).pending p = some t := by
  rcases h with hl | hr
  · exact Or.inl (sweepStep_processed_mono deb now st q p hl)
  · by_cases hq : q.1 = p
    · subst hq
      unfold sweepStep
      by_cases h1 : deb ≤ now - q.2
      · by_cases h2 : q.1 ∈ st.processed
        · exact Or.inl (by simpa [h1, h2] using h2)
        · left; simp [h1, h2]
      · right; simpa [h1]
    · right
      rwa [sweepStep_pending_other deb now st q p hq]

theorem sweepFold_track_some (deb now : Int) (l : List (String × Int))
    (st : DebounceState) (p : String) (t : Int)
    (h : p ∈ st.processed ∨ alget st.pending p = some t) :
    p ∈ (l.foldl (sweepStep deb now) st).processed ∨
      alget (l.foldl (sweepStep deb now) st).pending p = some t := by
  induction l generalizing st with
  | nil => exact h
  | cons q rest ih =>
    exact ih _ (sweepStep_track_some deb now st q p t h)

theorem sweepOnce_inv (deb now : Int) (p : String) (tl : Option Int)
    (s : DebounceState) (h : CountLaw p s ∧ TrackInv p tl s) :
    CountLaw p (sweepOnce deb now s) ∧ TrackInv p tl (sweepOnce deb now s) := by
  refine ⟨sweepFold_CountLaw deb now s.pending s p h.1, ?_⟩
  cases tl with
  | none =>
    obtain ⟨h1, h2⟩ := h.2
    exact sweepFold_untracked deb now s.pending s p
      (fun ts => alget_none_not_mem s.pending p h2 ts) h1 h2
  | some t =>
    exact sweepFold_track_some deb now s.pending s p t h.2

theorem imgRun_inv (deb : Int) (p : String) (ops : List IOp)
    (s : DebounceState) (tl : Option Int)
    (h : CountLaw p s ∧ TrackInv p tl s) :
    CountLaw p (imgRun deb s ops) ∧
      TrackInv p (ops.foldl (tlAfter p) tl) (imgRun deb s ops) := by
  induction ops generalizing s tl with
  | nil => exact h
  | cons op rest ih =>
    cases op with
    | ev k t =>
      exact ih (imgEvent s k t) (tlAfter p tl (.ev k t))
        (imgEvent_inv p k t tl s h)
    | sw t =>
      exact ih (sweepOnce deb t s) tl (sweepOnce_inv deb t p tl s h)

/-- **C3.** For any key `p` not yet tracked by the handler, a burst of
`K ≥ 1` events for `p` whose consecutive arrivals are separated by less
than the quiet period (with debounce-sweep wake-ups interleaved at
monotone times), followed by a sweep a full quiet period after the latest
event, enqueues `p` exactly once: each repeat event only overwrites the
pending timestamp, and the processed set stops every later emission. -/
theorem burst_single_ready_emission (deb : Int) (p : String)
    (s0 : DebounceState) (pre : List IOp) (tEnd tK : Int)
    (hproc : p ∉ s0.processed) (hpend : alget s0.pending p = none)
    (hcnt : List.count p s0.emitted = 0)
    (hmono : List.Chain' (· ≤ ·) ((pre ++ [IOp.sw tEnd]).map opTime))
    (hgaps : List.Chain' (fun a b => b - a < deb) (eventTimes p pre))
    (hlast : lastEventTime p pre = some tK)
    (hquiet : tK + deb ≤ tEnd) :
    List.count p (imgRun deb s0 (pre ++ [IOp.sw tEnd])).emitted = 1 := by
  have h0 : CountLaw p s0 ∧ TrackInv p none s0 :=
    ⟨by simp [CountLaw, hproc, hcnt], ⟨hproc, hpend⟩⟩
  have h1 := imgRun_inv deb p pre s0 none h0
  unfold lastEventTime at hlast
  rw [hlast] at h1
  have happ : imgRun deb s0 (pre ++ [IOp.sw tEnd]) =
      sweepOnce deb tEnd (imgRun deb s0 pre) := by
    simp [imgRun, List.foldl_append, imgStep]
  rw [happ]
  set s1 := imgRun deb s0 pre with hs1
  rcases h1.2 with hp | hpend1
  · have hcl := sweepFold_CountLaw deb tEnd s1.pending s1 p h1.1
    have hmem := sweepFold_processed_mono deb tEnd s1.pending s1 p hp
    unfold CountLaw at hcl
    rw [if_pos hmem] at hcl
    exact hcl
  · have hmem : (p, tK) ∈ s1.pending := alget_mem _ _ _ hpend1
    have hproc2 : p ∈ (sweepOnce deb tEnd s1).processed :=
      sweepFold_emits deb tEnd s1.pending s1 p tK hmem (by omega)
    have hcl := sweepFold_CountLaw deb tEnd s1.pending s1 p h1.1
    unfold CountLaw at hcl
    unfold sweepOnce at hproc2
    rw [if_pos hproc2] at hcl
    exact hcl

/-- Witness for C3: three events for `"k"` at times 0, 1, 2 (gaps below
the 2-tick quiet period), a fruitless sweep in between, and a final sweep
at time 4 yield exactly one emission. -/
theorem burst_single_ready_emission_witness :
    List.count "k" (imgRun 2 ⟨[], [], []⟩
      ([IOp.ev "k" 0, IOp.ev "k" 1, IOp.sw 1, IOp.ev "k" 2] ++
        [IOp.sw 4])).emitted = 1 :=
  burst_single_ready_emission 2 "k" ⟨[], [], []⟩
    [IOp.ev "k" 0, IOp.ev "k" 1, IOp.sw 1, IOp.ev "k" 2] 4 2
    (by simp) rfl rfl
    (by
      have hm : (([IOp.ev "k" 0, IOp.ev "k" 1, IOp.sw 1, IOp.ev "k" 2] ++
          [IOp.sw 4]).map opTime) = [0, 1, 1, 2, 4] := rfl
      rw [hm]
      norm_num [List.chain'_cons, List.chain'_singleton])
    (by
      have he : eventTimes "k"
          [IOp.ev "k" 0, IOp.ev "k" 1, IOp.sw 1, IOp.ev "k" 2] = [0, 1, 2] := rfl
      rw [he]
      norm_num [List.chain'_cons, List.chain'_singleton])
    rfl (by norm_num)

/-! ### Folder-handler traces (C4)

`FolderCreatedHandler` sees live notifications (`ev`), periodic
reconciliation scans over a directory listing (`scan`), and debounce
sweeps (`sw`). -/

inductive FOp where
  | ev (key : String) (t : Int)
  | scan (found : List String) (t : Int)
  | sw (t : Int)
deriving DecidableEq, Repr

def fstep (deb : Int) (s : DebounceState) : FOp → DebounceState
  | .ev k t => folderEvent s k t
  | .scan found t => reconcile s found t
  | .sw t => sweepOnce deb t s

def frun (deb : Int) (s : DebounceState) (ops : List FOp) : DebounceState :=
  ops.foldl (fstep deb) s

/-- The first time `p` gets enqueued into the pending map (later enqueues
of a key already pending or already processed are refused by the
handler). -/
def tfAfter (p : String) (tf : Option Int) : FOp → Option Int
  | .ev k t => if k = p ∧ tf = none then some t else tf
  | .scan found t => if p ∈ found ∧ tf = none then some t else tf
  | .sw _ => tf

def firstEnqueueTime (p : String) (ops : List FOp) : Option Int :=
  ops.foldl (tfAfter p) none

theorem alget_foldl_alset (ks : List String) (pd : List (String × Int))
    (t : Int) (p : String) :
    alget (ks.foldl (fun acc f => alset acc f t) pd) p =
      if p ∈ ks then some t else alget pd p := by
  induction ks generalizing pd with
  | nil => simp
  | cons f rest ih =>
    rw [List.foldl_cons, ih]
    by_cases hf : p ∈ rest
    · simp [hf]
    · by_cases hfp : f = p
      · subst hfp; simp [hf, alget_alset_self]
      · simp [hf, hfp, Ne.symm hfp, alget_alset_other _ _ _ _ hfp]

theorem folderEvent_fields (s : DebounceState) (k : String) (t : Int) :
    (folderEvent s k t).processed = s.processed ∧
      (folderEvent s k t).emitted = s.emitted := by
  unfold folderEvent
  by_cases h : k ∈ s.processed ∨ (alget s.pending k).isSome <;> simp [h]

theorem reconcile_fields (s : DebounceState) (found : List String) (t : Int) :
    (reconcile s found t).processed = s.processed ∧
      (reconcile s found t).emitted = s.emitted := by
  unfold reconcile; exact ⟨rfl, rfl⟩

theorem folderEvent_inv (p k : String) (t : Int) (tf : Option Int)
    (s : DebounceState) (h : CountLaw p s ∧ TrackInv p tf s) :
    CountLaw p (folderEvent s k t) ∧
      TrackInv p (tfAfter p tf (.ev k t)) (folderEvent s k t) := by
  obtain ⟨hf1, hf2⟩ := folderEvent_fields s k t
  refine ⟨by unfold CountLaw at *; rw [hf1, hf2]; exact h.1, ?_⟩
  by_cases hk : k = p
  · subst hk
    cases tf with
    | none =>
      obtain ⟨hp, hpd⟩ := h.2
      have hcond : ¬(k ∈ s.processed ∨ (alget s.pending k).isSome) := by
        simp [hp, hpd]
      simp only [tfAfter, and_true, if_pos rfl]
      unfold folderEvent
      rw [if_neg hcond]
      exact Or.inr (alget_alset_self _ _ _)
    | some t' =>
      have hskip : folderEvent s k t = s := by
        unfold folderEvent
        rcases h.2 with hl | hr
        · simp [hl]
        · simp [hr]
      simp only [tfAfter]
      rw [hskip]
      simpa using h.2
  · have halget : alget (folderEvent s k t).pending p = alget s.pending p := by
      unfold folderEvent
      by_cases hc : k ∈ s.processed ∨ (alget s.pending k).isSome
      · simp [hc]
      · simp [hc, alget_alset_other _ _ _ _ hk]
    have htf : tfAfter p tf (.ev k t) = tf := by
      simp [tfAfter, hk]
    rw [htf]
    unfold TrackInv
    cases tf with
    | none => exact ⟨hf1 ▸ h.2.1, halget ▸ h.2.2⟩
    | some t' =>
      rcases h.2 with hl | hr
      · exact Or.inl (hf1 ▸ hl)
      · exact Or.inr (halget ▸ hr)

theorem reconcile_inv (p : String) (found : List String) (t : Int)
    (tf : Option Int) (s : DebounceState)
    (h : CountLaw p s ∧ TrackInv p tf s) :
    CountLaw p (reconcile s found t) ∧
      TrackInv p (tfAfter p tf (.scan found t)) (reconcile s found t) := by
  obtain ⟨hf1, hf2⟩ := reconcile_fields s found t
  refine ⟨by unfold CountLaw at *; rw [hf1, hf2]; exact h.1, ?_⟩
  have halget : alget (reconcile s found t).pending p =
      if p ∈ found.filter (fun f => f ∉ s.processed ∧ (alget s.pending f).isNone)
      then some t else alget s.pending p := by
    unfold reconcile
    simp only []
    rw [alget_foldl_alset]
  cases tf with
  | none =>
    obtain ⟨hp, hpd⟩ := h.2
    by_cases hfound : p ∈ found
    · have hmem : p ∈ found.filter
          (fun f => f ∉ s.processed ∧ (alget s.pending f).isNone) := by
        rw [List.mem_filter]
        exact ⟨hfound, by simp [hp, hpd]⟩
      simp only [tfAfter, hfound, and_true, if_pos rfl, true_and]
      unfold TrackInv
      exact Or.inr (by rw [halget, if_pos hmem])
    · have hnot : p ∉ found.filter
          (fun f => f ∉ s.processed ∧ (alget s.pending f).isNone) :=
        fun hm => hfound (List.mem_of_mem_filter hm)
      simp only [tfAfter, hfound, false_and, if_neg, not_false_iff]
      exact ⟨hf1 ▸ hp, by rw [halget, if_neg hnot]; exact hpd⟩
  | some t' =>
    have hnot : p ∉ found.filter
        (fun f => f ∉ s.processed ∧ (alget s.pending f).isNone) := by
      intro hm
      have := (List.mem_filter.mp hm).2
      simp at this
      rcases h.2 with hl | hr
      · exact this.1 hl
      · rw [hr] at this
        simp at this
    have htf : tfAfter p (some t') (.scan found t) = some t' := by
      simp [tfAfter]
    rw [htf]
    unfold TrackInv
    rcases h.2 with hl | hr
    · exact Or.inl (hf1 ▸ hl)
    · exact Or.inr (by rw [halget, if_neg hnot]; exact hr)

theorem frun_inv (deb : Int) (p : String) (ops : List FOp)
    (s : DebounceState) (tf : Option Int)
    (h : CountLaw p s ∧ TrackInv p tf s) :
    CountLaw p (frun deb s ops) ∧
      TrackInv p (ops.foldl (tfAfter p) tf) (frun deb s ops) := by
  induction ops generalizing s tf with
  | nil => exact h
  | cons op rest ih =>
    cases op with
    | ev k t => exact ih _ _ (folderEvent_inv p k t tf s h)
    | scan found t => exact ih _ _ (reconcile_inv p found t tf s h)
    | sw t => exact ih _ _ (sweepOnce_inv deb t p tf s h)

theorem fstep_processed_mono (deb : Int) (s : DebounceState) (op : FOp)
    (p : String) (h : p ∈ s.processed) : p ∈ (fstep deb s op).processed := by
  cases op with
  | ev k t => rw [fstep, (folderEvent_fields s k t).1]; exact h
  | scan found t => rw [fstep, (reconcile_fields s found t).1]; exact h
  | sw t => exact sweepFold_processed_mono deb t s.pending s p h

theorem fstep_CountLaw (deb : Int) (s : DebounceState) (op : FOp)
    (p : String) (h : CountLaw p s) : CountLaw p (fstep deb s op) := by
  cases op with
  | ev k t =>
    unfold CountLaw at *
    rw [fstep, (folderEvent_fields s k t).1, (folderEvent_fields s k t).2]
    exact h
  | scan found t =>
    unfold CountLaw at *
    rw [fstep, (reconcile_fields s found t).1, (reconcile_fields s found t).2]
    exact h
  | sw t => exact sweepFold_CountLaw deb t s.pending s p h

theorem frun_stable (deb : Int) (p : String) (ops : List FOp)
    (s : DebounceState) (hp : p ∈ s.processed) (hc : CountLaw p s) :
    p ∈ (frun deb s ops).processed ∧ CountLaw p (frun deb s ops) := by
  induction ops generalizing s with
  | nil => exact ⟨hp, hc⟩
  | cons op rest ih =>
    exact ih _ (fstep_processed_mono deb s op p hp) (fstep_CountLaw deb s op p hc)

/-- **C4.** A resolved path enqueued any number of times — live
notifications and reconciliation scans mixed — is dispatched exactly once:
after the first sweep a full quiet period past its first enqueue, the
emitted count is 1, and it stays 1 over any continuation of the trace
(once in the processed set the path is never emitted again while the
watch lives). -/
theorem duplicate_enqueue_single_dispatch (deb : Int) (p : String)
    (s0 : DebounceState) (pre : List FOp) (tEnd t1 : Int)
    (hproc : p ∉ s0.processed) (hpend : alget s0.pending p = none)
    (hcnt : List.count p s0.emitted = 0)
    (hfirst : firstEnqueueTime p pre = some t1)
    (hquiet : t1 + deb ≤ tEnd) :
    List.count p (frun deb s0 (pre ++ [FOp.sw tEnd])).emitted = 1 ∧
      ∀ more, List.count p
        (frun deb (frun deb s0 (pre ++ [FOp.sw tEnd])) more).emitted = 1 := by
  have h0 : CountLaw p s0 ∧ TrackInv p none s0 :=
    ⟨by simp [CountLaw, hproc, hcnt], ⟨hproc, hpend⟩⟩
  have h1 := frun_inv deb p pre s0 none h0
  unfold firstEnqueueTime at hfirst
  rw [hfirst] at h1
  have happ : frun deb s0 (pre ++ [FOp.sw tEnd]) =
      sweepOnce deb tEnd (frun deb s0 pre) := by
    simp [frun, List.foldl_append, fstep]
  set s1 := frun deb s0 pre with hs1
  have hdone : p ∈ (sweepOnce deb tEnd s1).processed := by
    rcases h1.2 with hp | hpend1
    · exact sweepFold_processed_mono deb tEnd s1.pending s1 p hp
    · exact sweepFold_emits deb tEnd s1.pending s1 p t1
        (alget_mem _ _ _ hpend1) (by omega)
  have hcl : CountLaw p (sweepOnce deb tEnd s1) :=
    sweepFold_CountLaw deb tEnd s1.pending s1 p h1.1
  have hone : List.count p (sweepOnce deb tEnd s1).emitted = 1 := by
    unfold CountLaw at hcl
    rwa [if_pos hdone] at hcl
  refine ⟨by rw [happ]; exact hone, ?_⟩
  intro more
  rw [happ]
  obtain ⟨hp2, hc2⟩ := frun_stable deb p more (sweepOnce deb tEnd s1) hdone hcl
  unfold CountLaw at hc2
  rwa [if_pos hp2] at hc2

/-- Witness for C4: the same folder is enqueued twice — once by a live
event at time 0 and once offered again by the reconciliation scan at
time 1 — and after the sweep at time 5 (and any later events or sweeps)
exactly one dispatch has happened. -/
theorem duplicate_enqueue_single_dispatch_witness :
    List.count "f" (frun 2 ⟨[], [], []⟩
      ([FOp.ev "f" 0, FOp.scan ["f"] 1] ++ [FOp.sw 5])).emitted = 1 ∧
      List.count "f" (frun 2 (frun 2 ⟨[], [], []⟩
        ([FOp.ev "f" 0, FOp.scan ["f"] 1] ++ [FOp.sw 5]))
        [FOp.ev "f" 6, FOp.sw 9]).emitted = 1 := by
  refine ⟨(duplicate_enqueue_single_dispatch 2 "f" ⟨[], [], []⟩
      [FOp.ev "f" 0, FOp.scan ["f"] 1] 5 0
      (by simp) rfl rfl rfl (by norm_num)).1, ?_⟩
  exact (duplicate_enqueue_single_dispatch 2 "f" ⟨[], [], []⟩
      [FOp.ev "f" 0, FOp.scan ["f"] 1] 5 0
      (by simp) rfl rfl rfl (by norm_num)).2 [FOp.ev "f" 6, FOp.sw 9]

/-! ## First-child escalation (`ParentFolderSubfolderHandler`, C9)

The handler guards everything behind the `child_folder_found` flag (all
reads and writes under `self.lock`, so callbacks serialize).  We count the
calls to `folder_watcher._watch_child_folder_for_images`, the escalation
action. -/

structure EscalationState where
  child_folder_found : Bool
  escalations : Nat
deriving DecidableEq, Repr

/-- The three entry points, with the data each one's guards inspect:
`created`/`moved` events carry whether the event is for a directory and
whether the resolved path is a direct child of the parent folder;
a `periodic` check carries the subfolder listing it found. -/
inductive EOp where
  | created (isDirectory : Bool) (parentMatch : Bool)
  | moved (isDirectory : Bool) (parentMatch : Bool)
  | periodic (subfolders : List String)
deriving DecidableEq, Repr

/-- Set the flag and invoke `_watch_child_folder_for_images`. -/
def escalate (s : EscalationState) : EscalationState :=
  { child_folder_found := true, escalations := s.escalations + 1 }

/-- `on_created` / `on_moved` / `_periodic_check` body: each returns
early on a non-directory event, a set flag, or a non-child path; the
periodic check escalates on the first subfolder it lists. -/
def estep (s : EscalationState) : EOp → EscalationState
  | .created isDirectory parentMatch =>
    if !isDirectory then s
    else if s.child_folder_found then s
    else if !parentMatch then s
    else escalate s
  | .moved isDirectory parentMatch =>
    if !isDirectory then s
    else if s.child_folder_found then s
    else if !parentMatch then s
    else escalate s
  | .periodic subfolders =>
    if s.child_folder_found then s
    else match subfolders with
      | [] => s
      | _ :: _ => escalate s

def erun (s : EscalationState) (ops : List EOp) : EscalationState :=
  ops.foldl estep s

/-- Whether an operation detects a child directory (passes all guards
apart from the flag). -/
def detects : EOp → Bool
  | .created isDirectory parentMatch => isDirectory && parentMatch
  | .moved isDirectory parentMatch => isDirectory && parentMatch
  | .periodic subfolders => !subfolders.isEmpty

theorem estep_found (s : EscalationState) (op : EOp)
    (h : s.child_folder_found = true) : estep s op = s := by
  cases op with
  | created d pm =>
    by_cases hd : d <;> simp [estep, hd, h]
  | moved d pm =>
    by_cases hd : d <;> simp [estep, hd, h]
  | periodic subs => simp [estep, h]

theorem erun_found (s : EscalationState) (ops : List EOp)
    (h : s.child_folder_found = true) : erun s ops = s := by
  induction ops with
  | nil => rfl
  | cons op rest ih =>
    simp only [erun, List.foldl_cons] at *
    rw [estep_found s op h, ih]

theorem estep_not_found (s : EscalationState) (op : EOp)
    (h : s.child_folder_found = false) :
    estep s op = if detects op then escalate s else s := by
  cases op with
  | created d pm =>
    cases d <;> cases pm <;> simp [estep, detects, h]
  | moved d pm =>
    cases d <;> cases pm <;> simp [estep, detects, h]
  | periodic subs =>
    cases subs <;> simp [estep, detects, h]

/-- **C9.** From the child-watching state, over any interleaving of the
`created`/`moved` callbacks and the periodic fallback check, the
escalation to watching a concrete child directory happens exactly once if
any operation detects a child directory — the first detection flips the
flag and every later detection is ignored — and never otherwise. -/
theorem escalation_exactly_once (ops : List EOp) :
    (erun ⟨false, 0⟩ ops).escalations = if ops.any detects then 1 else 0 := by
  induction ops with
  | nil => rfl
  | cons op rest ih =>
    simp only [erun, List.foldl_cons, List.any_cons]
    by_cases hd : detects op
    · rw [estep_not_found _ _ rfl, if_pos hd]
      have : erun (escalate ⟨false, 0⟩) rest = escalate ⟨false, 0⟩ :=
        erun_found _ rest rfl
      simp only [erun] at this
      rw [this]
      simp [escalate, hd]
    · rw [estep_not_found _ _ rfl, if_neg hd]
      simp only [erun] at ih
      rw [ih]
      simp [hd]

/-! ## Round-trip collector (`LightroomDestinationWatcher._process_file`, C5)

The filename is split with Python's `split(separator, 1)` (maxsplit 1):
at most one split, performed at the *first* occurrence of the separator.
-/

/-- Find the first occurrence of `sep` in the remainder `s`, with `acc`
the (reversed) part already scanned: returns the text before the first
occurrence and the text after it. -/
def splitFirstAux (sep : List Char) (acc : List Char) :
    List Char → Option (List Char × List Char)
  | [] => none
  | c :: rest =>
    if sep.isPrefixOf (c :: rest) then
      some (acc.reverse, (c :: rest).drop sep.length)
    else splitFirstAux sep (c :: acc) rest

/-- Python's `sep in s` (for the nonempty separators the config uses). -/
def strContains (sep s : List Char) : Bool :=
  (splitFirstAux sep [] s).isSome

/-- Python's `s.split(sep, 1)`. -/
def pySplit1 (sep s : List Char) : List (List Char) :=
  match splitFirstAux sep [] s with
  | none => [s]
  | some (a, b) => [a, b]

inductive ProcessFileResult where
  /-- the artifact vanished before processing -/
  | vanished
  /-- malformed name: logged, artifact left untouched in the return folder -/
  | untouched
  /-- output base folder inaccessible: logged, artifact left in place -/
  | ioError
  /-- artifact moved to `output_base/folder_name/processedSub/original`,
  `decrement(folder_name)` called -/
  | relocated (folder_name original : String) (dest : List String)
deriving DecidableEq, Repr

/-- `LightroomDestinationWatcher._process_file`.  `fileExists` is the
result of the initial existence check and `outputOk` the output-base
accessibility check; the mkdir/move I/O is abstracted into the returned
destination path (failures inside the outer `try` only log and return
early, which the claims here do not touch). -/
def process_file (output_base processedSub separator : String)
    (st : CounterState) (fileExists outputOk : Bool) (filename : String) :
    CounterState × ProcessFileResult :=
  if !fileExists then (st, .vanished)
  else if !(strContains separator.data filename.data) then (st, .untouched)
  else
    match pySplit1 separator.data filename.data with
    | [a, b] =>
      let folder_name : String := ⟨a⟩
      let original : String := ⟨b⟩
      if !outputOk then (st, .ioError)
      else
        ((decrement st folder_name).1,
          .relocated folder_name original
            [output_base, folder_name, processedSub, original])
    | _ => (st, .untouched)

/-- **C5 counterexample.** The claim says a filename with a *duplicated*
separator is malformed and left untouched with no decrement; the code
splits `"Session1___a___b.jpg"` at the first `"___"` (maxsplit 1 always
yields two parts, so the `len(parts) != 2` guard never fires), relocates
it under session `"Session1"` as `"a___b.jpg"`, and decrements that
session's counter from 1 to 0. -/
theorem process_file_duplicated_separator :
    process_file "out" "processed" "___"
      { threshold := 5, counters := [("Session1", 1)], pending_queues := [] }
      true true "Session1___a___b.jpg" =
      ({ threshold := 5, counters := [("Session1", 0)], pending_queues := [] },
        .relocated "Session1" "a___b.jpg"
          ["out", "Session1", "processed", "a___b.jpg"]) ∧
      (process_file "out" "processed" "___"
        { threshold := 5, counters := [("Session1", 1)], pending_queues := [] }
        true true "Session1___a___b.jpg").2 ≠ .untouched ∧
      (process_file "out" "processed" "___"
        { threshold := 5, counters := [("Session1", 1)], pending_queues := [] }
        true true "Session1___a___b.jpg").1 ≠
        { threshold := 5, counters := [("Session1", 1)], pending_queues := [] } := by
  refine ⟨by decide, by decide, by decide⟩

theorem pySplit1_of_some (sep s a b : List Char)
    (h : splitFirstAux sep [] s = some (a, b)) : pySplit1 sep s = [a, b] := by
  unfold pySplit1
  rw [h]

/-- How `_process_file` treats a name: no separator occurrence means
untouched; otherwise the name is split at the first occurrence and the
artifact is relocated with a decrement of the session's counter. -/
theorem process_file_split_first (output_base processedSub separator : String)
    (st : CounterState) (outputOk : Bool) (filename : String) :
    (splitFirstAux separator.data [] filename.data = none →
      process_file output_base processedSub separator st true outputOk filename =
        (st, .untouched)) ∧
    (∀ a b, splitFirstAux separator.data [] filename.data = some (a, b) →
      outputOk = true →
      process_file output_base processedSub separator st true outputOk filename =
        ((decrement st ⟨a⟩).1,
          .relocated ⟨a⟩ ⟨b⟩ [output_base, ⟨a⟩, processedSub, ⟨b⟩])) := by
  constructor
  · intro h
    unfold process_file strContains
    rw [h]
    rfl
  · intro a b h hok
    unfold process_file
    have hc : strContains separator.data filename.data = true := by
      unfold strContains
      rw [h]
      rfl
    rw [hc, pySplit1_of_some _ _ _ _ h]
    simp [hok]

/-- **C5 amended.** For every returned artifact: a filename *not
containing* the separator is malformed — logged and left untouched, with
no decrement; a filename containing the separator is split at its *first*
occurrence into `sessionId` and `originalName` (the latter may itself
contain the separator), relocated to
`outputRoot/sessionId/processedSubdir/originalName`, and
`recordReturn(sessionId)` is called. -/
theorem process_file_first_separator (output_base processedSub separator : String)
    (st : CounterState) (outputOk : Bool) (filename : String) :
    (splitFirstAux separator.data [] filename.data = none →
      process_file output_base processedSub separator st true outputOk filename =
        (st, .untouched)) ∧
    (∀ a b, splitFirstAux separator.data [] filename.data = some (a, b) →
      outputOk = true →
      process_file output_base processedSub separator st true outputOk filename =
        ((decrement st ⟨a⟩).1,
          .relocated ⟨a⟩ ⟨b⟩ [output_base, ⟨a⟩, processedSub, ⟨b⟩])) :=
  process_file_split_first output_base processedSub separator st outputOk filename

/-- Witness for the amended C5 at both branches: `"noseparator.jpg"` is
left untouched, `"Session1___a.jpg"` is routed to session `"Session1"`,
file `"a.jpg"`. -/
theorem process_file_first_separator_witness :
    process_file "out" "processed" "___" (CounterState.init 5) true true
        "noseparator.jpg" = (CounterState.init 5, .untouched) ∧
      process_file "out" "processed" "___"
        { threshold := 5, counters := [("Session1", 1)], pending_queues := [] }
        true true "Session1___a.jpg" =
        ({ threshold := 5, counters := [("Session1", 0)], pending_queues := [] },
          .relocated "Session1" "a.jpg" ["out", "Session1", "processed", "a.jpg"]) := by
  constructor
  · exact (process_file_first_separator "out" "processed" "___"
      (CounterState.init 5) true "noseparator.jpg").1 (by decide)
  · have h := (process_file_first_separator "out" "processed" "___"
      { threshold := 5, counters := [("Session1", 1)], pending_queues := [] }
      true "Session1___a.jpg").2 "Session1".data "a.jpg".data (by decide) rfl
    rw [h]
    have : decrement
        { threshold := 5, counters := [("Session1", 1)], pending_queues := [] }
        ⟨"Session1".data⟩ =
        ({ threshold := 5, counters := [("Session1", 0)], pending_queues := [] }, 0) := by
      decide
    rw [this]

/-! ## Dispatch step (`FolderWatcher._process_image`, C6)

`sink k` is the outcome the copy into the sink folder would have on the
`k`-th attempt (counting from 0); the code makes at most one attempt. -/

structure DispatchResult where
  st : CounterState
  success : Bool
  attempts : Nat
deriving DecidableEq, Repr

/-- `FolderWatcher._process_image`: existence check, output-base check,
move of the original (on failure: log and return), then one single copy
into the Lightroom watched folder; `increment` runs only inside the
`try` after a successful copy. -/
def process_image (st : CounterState) (folder_name : String)
    (fileExists outputOk moveOk : Bool) (sink : Nat → Bool) : DispatchResult :=
  if !fileExists then ⟨st, false, 0⟩
  else if !outputOk then ⟨st, false, 0⟩
  else if !moveOk then ⟨st, false, 0⟩
  else if sink 0 then ⟨(increment st folder_name).1, true, 1⟩
  else ⟨st, false, 1⟩

/-- **C6 counterexample.** The claim says the dispatcher retries a
bounded fixed number of attempts (at least one retry, i.e. ≥ 2 attempts)
before logging the item as failed.  No retry count makes that true: for a
sink that fails on the first attempt but would succeed on every retry,
the code logs the item as failed after a single attempt. -/
theorem process_image_never_retries :
    ¬ ∃ retries : Nat, 2 ≤ retries ∧
      ∀ (st : CounterState) (fn : String) (sink : Nat → Bool),
        (∃ k, k < retries ∧ sink k = true) →
        (process_image st fn true true true sink).success = true := by
  rintro ⟨R, hR, hall⟩
  have h := hall (CounterState.init 5) "s" (fun k => decide (1 ≤ k))
    ⟨1, by omega, by decide⟩
  simp [process_image] at h

/-- **C6 amended.** The dispatcher makes at most one handoff attempt —
there is no retry; on every failure path (vanished file, inaccessible
output base, failed move, failed copy) the admission counter is left
unchanged, so a failed item never consumes an admission slot; and the
counter is incremented exactly when the single copy attempt succeeded. -/
theorem process_image_single_attempt (st : CounterState) (fn : String)
    (fileExists outputOk moveOk : Bool) (sink : Nat → Bool) :
    (process_image st fn fileExists outputOk moveOk sink).attempts ≤ 1 ∧
      ((process_image st fn fileExists outputOk moveOk sink).success = false →
        (process_image st fn fileExists outputOk moveOk sink).st = st) ∧
      ((process_image st fn fileExists outputOk moveOk sink).success = true →
        (process_image st fn fileExists outputOk moveOk sink).st =
            (increment st fn).1 ∧ sink 0 = true) := by
  unfold process_image
  cases fileExists with
  | false => simp
  | true =>
    cases outputOk with
    | false => simp
    | true =>
      cases moveOk with
      | false => simp
      | true =>
        by_cases hs : sink 0
        · simp [hs]
        · simp [hs]

/-- Witness for the amended C6: a failing sink leaves the counter state
untouched. -/
theorem process_image_single_attempt_witness :
    (process_image (CounterState.init 5) "s" true true true
        (fun _ => false)).st = CounterState.init 5 :=
  (process_image_single_attempt (CounterState.init 5) "s" true true true
    (fun _ => false)).2.1 rfl

/-! ## Retention sweeper (`ImageCleanup._cleanup_folder`, C7)

The filesystem under one configured root is a list of entries (path
relative to the root as a component list, directory flag, mtime); `rglob`
enumerates exactly these entries. -/

structure FSEntry where
  path : List String
  isDir : Bool
  mtime : Int
deriving DecidableEq, Repr

/-- `item_age = current_time - item_path.stat().st_mtime`. -/
def itemAge (now : Int) (e : FSEntry) : Int := now - e.mtime

/-- `item_age > max_age_seconds` (strictly older than the maximum age). -/
def stale (now maxAgeSeconds : Int) (e : FSEntry) : Bool :=
  decide (maxAgeSeconds < itemAge now e)

/-- The Python sort key `(len(x[0].parts), x[2])` (tuple order, with
`False < True`) encoded as a single natural number: comparing
`2 * depth + dirBit` is exactly lexicographic comparison of the pair. -/
def sortRank (e : FSEntry) : Nat :=
  2 * e.path.length + (if e.isDir then 1 else 0)

/-- Insertion into a list kept in descending `sortRank` order
(`reverse=True`). -/
def insertRankDesc (x : FSEntry) : List FSEntry → List FSEntry
  | [] => [x]
  | y :: ys =>
    if sortRank y < sortRank x then x :: y :: ys else y :: insertRankDesc x ys

def sortRankDesc (l : List FSEntry) : List FSEntry :=
  l.foldr insertRankDesc []

/-- `items_to_delete`, sorted deepest-first with directories before files
at equal depth. -/
def items_to_delete (now maxAge : Int) (fs : List FSEntry) : List FSEntry :=
  sortRankDesc (fs.filter (stale now maxAge))

/-- `item_path.exists()`. -/
def pathExists (fs : List FSEntry) (p : List String) : Bool :=
  fs.any (fun e => e.path == p)

/-- Whether deleting `x` removes `e`: `shutil.rmtree` removes a directory
together with everything below it, `unlink` removes one file. -/
def hitsB (x e : FSEntry) : Bool :=
  if x.isDir then x.path.isPrefixOf e.path else e.path == x.path

/-- The loop body over one item to delete: directories are removed
recursively with `rmtree`, files with `unlink`, each only if the path
still exists — an entry already gone is skipped silently (success, not
error; `OSError` is also caught and only logged). -/
def deleteOne (fs : List FSEntry) (x : FSEntry) : List FSEntry :=
  if x.isDir then
    if pathExists fs x.path then
      fs.filter (fun e => !(x.path.isPrefixOf e.path))
    else fs
  else
    if pathExists fs x.path then
      fs.filter (fun e => !(e.path == x.path))
    else fs

/-- `ImageCleanup._cleanup_folder`: collect all stale entries, sort them
deepest-first, delete them in order. -/
def cleanup_folder (now maxAge : Int) (fs : List FSEntry) : List FSEntry :=
  (items_to_delete now maxAge fs).foldl deleteOne fs

/-- **C7 counterexample.** With `maxAge = 1800 s` at `now = 2000`, the
directory `d` (mtime 0, stale) contains file `d/f` (mtime 1999, only 1 s
old, not stale).  The claim says a sweep preserves all younger
descendants, but `rmtree` on the stale directory deletes the young file
wholesale. -/
theorem cleanup_deletes_young_descendant :
    stale 2000 1800 ⟨["d", "f"], false, 1999⟩ = false ∧
      (⟨["d", "f"], false, 1999⟩ : FSEntry) ∈
        [(⟨["d"], true, 0⟩ : FSEntry), ⟨["d", "f"], false, 1999⟩] ∧
      (⟨["d", "f"], false, 1999⟩ : FSEntry) ∉
        cleanup_folder 2000 1800
          [⟨["d"], true, 0⟩, ⟨["d", "f"], false, 1999⟩] := by
  refine ⟨rfl, by decide, ?_⟩
  decide

theorem mem_insertRankDesc (x a : FSEntry) (l : List FSEntry) :
    a ∈ insertRankDesc x l ↔ a = x ∨ a ∈ l := by
  induction l with
  | nil => simp [insertRankDesc]
  | cons y ys ih =>
    unfold insertRankDesc
    by_cases h : sortRank y < sortRank x
    · simp [h]
    · simp [h, ih]
      tauto

theorem insertRankDesc_perm (x : FSEntry) (l : List FSEntry) :
    List.Perm (insertRankDesc x l) (x :: l) := by
  induction l with
  | nil => exact List.Perm.refl _
  | cons y ys ih =>
    unfold insertRankDesc
    by_cases h : sortRank y < sortRank x
    · rw [if_pos h]
    · rw [if_neg h]
      exact (ih.cons y).trans (List.Perm.swap x y ys)

theorem sortRankDesc_perm (l : List FSEntry) : List.Perm (sortRankDesc l) l := by
  induction l with
  | nil => exact List.Perm.refl _
  | cons x xs ih =>
    unfold sortRankDesc at *
    exact (insertRankDesc_perm x _).trans (ih.cons x)

theorem insertRankDesc_pairwise (x : FSEntry) (l : List FSEntry)
    (h : l.Pairwise (fun a b => sortRank b ≤ sortRank a)) :
    (insertRankDesc x l).Pairwise (fun a b => sortRank b ≤ sortRank a) := by
  induction l with
  | nil => simp [insertRankDesc]
  | cons y ys ih =>
    rw [List.pairwise_cons] at h
    unfold insertRankDesc
    by_cases hlt : sortRank y < sortRank x
    · rw [if_pos hlt, List.pairwise_cons]
      refine ⟨?_, List.pairwise_cons.mpr h⟩
      intro b hb
      rcases List.mem_cons.mp hb with hb | hb
      · subst hb; omega
      · have := h.1 b hb; omega
    · rw [if_neg hlt, List.pairwise_cons]
      refine ⟨?_, ih h.2⟩
      intro b hb
      rcases (mem_insertRankDesc x b ys).mp hb with hb | hb
      · subst hb; omega
      · exact h.1 b hb

theorem sortRankDesc_pairwise (l : List FSEntry) :
    (sortRankDesc l).Pairwise (fun a b => sortRank b ≤ sortRank a) := by
  induction l with
  | nil => simp [sortRankDesc]
  | cons x xs ih => exact insertRankDesc_pairwise x _ ih

theorem items_to_delete_deepest_first (now maxAge : Int) (fs : List FSEntry) :
    (items_to_delete now maxAge fs).Pairwise
      (fun a b => b.path.length ≤ a.path.length) := by
  refine (sortRankDesc_pairwise _).imp ?_
  intro a b h
  unfold sortRank at h
  by_cases ha : a.isDir <;> by_cases hb : b.isDir <;> simp [ha, hb] at h <;> omega

theorem mem_items_to_delete (now maxAge : Int) (fs : List FSEntry)
    (x : FSEntry) : x ∈ items_to_delete now maxAge fs ↔
      x ∈ fs ∧ stale now maxAge x = true := by
  unfold items_to_delete
  rw [(sortRankDesc_perm (fs.filter (stale now maxAge))).mem_iff, List.mem_filter]

/-- Survival of an entry against a list of deletions. -/
def keepAll (xs : List FSEntry) (e : FSEntry) : Bool :=
  xs.all (fun x => !hitsB x e)

theorem deleteOne_eq (fs : List FSEntry) (x : FSEntry) :
    deleteOne fs x =
      if pathExists fs x.path then fs.filter (fun e => !hitsB x e) else fs := by
  by_cases hd : x.isDir <;> simp [deleteOne, hitsB, hd]

theorem hitsB_self (e : FSEntry) : hitsB e e = true := by
  unfold hitsB
  by_cases hd : e.isDir
  · simp [hd, List.isPrefixOf_iff_prefix]
  · simp [hd]

theorem eq_of_path_eq (fs : List FSEntry)
    (hnd : (fs.map FSEntry.path).Nodup) (a b : FSEntry)
    (ha : a ∈ fs) (hb : b ∈ fs) (hp : a.path = b.path) : a = b :=
  List.inj_on_of_nodup_map hnd ha hb hp

theorem keepAll_append_single (done : List FSEntry) (x e : FSEntry) :
    keepAll (done ++ [x]) e = (keepAll done e && !hitsB x e) := by
  unfold keepAll
  rw [List.all_append]
  simp

/-- Core of the retention-sweep analysis: deleting the items in any order
(children-before-parents in the code) amounts to filtering the original
listing by survival against the full deletion list; an item whose path
has already disappeared is a silent no-op because only a wholesale
`rmtree` of an ancestor can have removed it, and that already removed
everything the item would have. -/
theorem deleteFold_filter (fs : List FSEntry)
    (hnd : (fs.map FSEntry.path).Nodup) (items : List FSEntry)
    (hsub : ∀ x ∈ items, x ∈ fs) (hnd2 : items.Nodup) :
    ∀ todo done, items = done ++ todo →
      todo.foldl deleteOne (fs.filter (keepAll done)) =
        fs.filter (keepAll items) := by
  intro todo
  induction todo with
  | nil =>
    intro done hsplit
    rw [List.foldl_nil, hsplit, List.append_nil]
  | cons x0 rest ih =>
    intro done hsplit
    have hx0 : x0 ∈ fs :=
      hsub x0 (by rw [hsplit]; exact List.mem_append_right done (List.mem_cons_self x0 rest))
    rw [List.foldl_cons]
    have hstep : deleteOne (fs.filter (keepAll done)) x0 =
        fs.filter (keepAll (done ++ [x0])) := by
      rw [deleteOne_eq]
      by_cases hex : pathExists (fs.filter (keepAll done)) x0.path = true
      · rw [if_pos hex, List.filter_filter]
        exact List.filter_congr fun e he => by
          rw [keepAll_append_single, Bool.and_comm]
      · rw [if_neg hex]
        have hk0 : keepAll done x0 = false := by
          cases hk : keepAll done x0
          · rfl
          · exfalso
            apply hex
            unfold pathExists
            rw [List.any_eq_true]
            exact ⟨x0, List.mem_filter.mpr ⟨hx0, hk⟩, by simp⟩
        have hy : ∃ y, y ∈ done ∧ hitsB y x0 = true := by
          by_contra hno
          push_neg at hno
          have hall : keepAll done x0 = true := by
            unfold keepAll
            rw [List.all_eq_true]
            intro y hyd
            have hf : hitsB y x0 = false := by
              cases hh : hitsB y x0
              · rfl
              · exact absurd hh (hno y hyd)
            rw [hf]; rfl
          rw [hall] at hk0; cases hk0
        obtain ⟨y, hyd, hyhits⟩ := hy
        by_cases hydir : y.isDir
        · have hpre : y.path <+: x0.path := by
            unfold hitsB at hyhits
            rw [if_pos hydir] at hyhits
            exact List.isPrefixOf_iff_prefix.mp hyhits
          have hcong : ∀ e ∈ fs, keepAll (done ++ [x0]) e = keepAll done e := by
            intro e he
            rw [keepAll_append_single]
            cases hk : keepAll done e
            · simp
            · have hny : hitsB y e = false := by
                unfold keepAll at hk
                rw [List.all_eq_true] at hk
                have := hk y hyd
                simpa using this
              have hxe : hitsB x0 e = false := by
                cases hxe : hitsB x0 e
                · rfl
                · exfalso
                  have hyue : y.path <+: e.path := by
                    unfold hitsB at hxe
                    by_cases hx0d : x0.isDir
                    · rw [if_pos hx0d] at hxe
                      exact hpre.trans (List.isPrefixOf_iff_prefix.mp hxe)
                    · rw [if_neg hx0d] at hxe
                      have hpe : e.path = x0.path := by simpa using hxe
                      rw [hpe]; exact hpre
                  unfold hitsB at hny
                  rw [if_pos hydir, List.isPrefixOf_iff_prefix.mpr hyue] at hny
                  cases hny
              simp [hxe]
          exact (List.filter_congr hcong).symm
        · have hpathe : x0.path = y.path := by
            unfold hitsB at hyhits
            rw [if_neg hydir] at hyhits
            simpa using hyhits
          have hyfs : y ∈ fs :=
            hsub y (by rw [hsplit]; exact List.mem_append_left _ hyd)
          have hxy : x0 = y := eq_of_path_eq fs hnd x0 y hx0 hyfs hpathe
          subst hxy
          rw [hsplit] at hnd2
          obtain ⟨-, -, hdisj⟩ := List.nodup_append.mp hnd2
          exact absurd (List.mem_cons_self x0 rest) (hdisj hyd)
    rw [hstep]
    exact ih (done ++ [x0]) (by rw [hsplit]; simp)

/-- **C7 amended.** For a root whose listing has no duplicate paths, one
retention sweep (a) removes exactly the entries that are themselves stale
(mtime age strictly over `maxAge`) *or* lie below a stale directory —
younger descendants of a stale directory are deleted wholesale by its
`rmtree`, all other younger entries are preserved — and (b) processes
deletions children-before-parents (deepest path-depth first); an entry
already removed when its turn comes is skipped as success, not an
error. -/
theorem cleanup_folder_spec (now maxAge : Int) (fs : List FSEntry)
    (hnd : (fs.map FSEntry.path).Nodup) :
    (∀ e, e ∈ cleanup_folder now maxAge fs ↔
      e ∈ fs ∧ stale now maxAge e = false ∧
        ¬ ∃ d ∈ fs, d.isDir = true ∧ stale now maxAge d = true ∧
          d.path <+: e.path) ∧
      (items_to_delete now maxAge fs).Pairwise
        (fun a b => b.path.length ≤ a.path.length) := by
  refine ⟨?_, items_to_delete_deepest_first now maxAge fs⟩
  have hsub : ∀ x ∈ items_to_delete now maxAge fs, x ∈ fs := fun x hx =>
    ((mem_items_to_delete now maxAge fs x).mp hx).1
  have hnd2 : (items_to_delete now maxAge fs).Nodup :=
    ((sortRankDesc_perm (fs.filter (stale now maxAge))).nodup_iff).mpr
      (List.Nodup.filter _ (hnd.of_map))
  have hkeep0 : fs.filter (keepAll []) = fs := by
    simp [keepAll]
  have hfold := deleteFold_filter fs hnd (items_to_delete now maxAge fs)
    hsub hnd2 (items_to_delete now maxAge fs) [] rfl
  rw [hkeep0] at hfold
  intro e
  unfold cleanup_folder
  rw [hfold, List.mem_filter]
  constructor
  · rintro ⟨hefs, hke⟩
    refine ⟨hefs, ?_, ?_⟩
    · cases hse : stale now maxAge e
      · rfl
      · exfalso
        have hmem : e ∈ items_to_delete now maxAge fs :=
          (mem_items_to_delete now maxAge fs e).mpr ⟨hefs, hse⟩
        unfold keepAll at hke
        rw [List.all_eq_true] at hke
        have := hke e hmem
        rw [hitsB_self] at this
        cases this
    · rintro ⟨d, hdfs, hddir, hdstale, hdpre⟩
      have hdm : d ∈ items_to_delete now maxAge fs :=
        (mem_items_to_delete now maxAge fs d).mpr ⟨hdfs, hdstale⟩
      unfold keepAll at hke
      rw [List.all_eq_true] at hke
      have hh := hke d hdm
      have : hitsB d e = true := by
        unfold hitsB
        rw [if_pos hddir]
        exact List.isPrefixOf_iff_prefix.mpr hdpre
      rw [this] at hh
      cases hh
  · rintro ⟨hefs, hse, hnod⟩
    refine ⟨hefs, ?_⟩
    unfold keepAll
    rw [List.all_eq_true]
    intro x hx
    obtain ⟨hxfs, hxstale⟩ := (mem_items_to_delete now maxAge fs x).mp hx
    cases hhit : hitsB x e
    · rfl
    · exfalso
      by_cases hxd : x.isDir
      · have hpre : x.path <+: e.path := by
          unfold hitsB at hhit
          rw [if_pos hxd] at hhit
          exact List.isPrefixOf_iff_prefix.mp hhit
        exact hnod ⟨x, hxfs, by simpa using hxd, hxstale, hpre⟩
      · have hpe : e.path = x.path := by
          unfold hitsB at hhit
          rw [if_neg hxd] at hhit
          simpa using hhit
        have hex : e = x := eq_of_path_eq fs hnd e x hefs hxfs hpe
        rw [hex, hxstale] at hse
        cases hse

/-- Witness for the amended C7 at a concrete root: a 1-second-old file
with no stale ancestor survives the sweep that removes a 2000-second-old
sibling. -/
theorem cleanup_folder_spec_witness :
    (⟨["a"], false, 1999⟩ : FSEntry) ∈ cleanup_folder 2000 1800
      [⟨["a"], false, 1999⟩, ⟨["b"], false, 0⟩] :=
  ((cleanup_folder_spec 2000 1800
      [⟨["a"], false, 1999⟩, ⟨["b"], false, 0⟩] (by decide)).1
    ⟨["a"], false, 1999⟩).mpr ⟨by decide, by decide, by decide⟩

/-! ## Lifecycle reaper (`FolderWatcher._stop_watching_folder` /
`_folder_management_worker`, C8)

`watched` models `watched_folders` (`folder_path -> created_time`; the
observer/handler pair is abstracted away), `counter` the shared
`ProcessingCounter`, `dirs` the set of session directory trees on disk. -/

/-- `Path(folder_path).name`: the last `/`-separated component. -/
def pathName (p : String) : String :=
  ⟨p.data.foldl (fun acc c => if c = '/' then [] else acc ++ [c]) []⟩

structure SystemState where
  watched : List (String × Int)
  counter : CounterState
  dirs : List String
deriving DecidableEq, Repr

/-- `FolderWatcher._stop_watching_folder`: a no-op on an unknown path;
otherwise drop the watch entry, stop its observer (abstracted), remove
the session from the processing counter (the code guards this behind the
truthiness of the folder name), and delete the on-disk tree (skipped
silently if it is already gone). -/
def stop_watching_folder (st : SystemState) (folder_path : String) :
    SystemState :=
  if (alget st.watched folder_path).isNone then st
  else
    { watched := alerase st.watched folder_path,
      counter :=
        if pathName folder_path ≠ "" then
          remove_folder st.counter (pathName folder_path)
        else st.counter,
      dirs := st.dirs.filter (fun d => d ≠ folder_path) }

/-- One pass of `_folder_management_worker`: collect every watch whose
age has reached the timeout, then stop each one. -/
def reaper_sweep (timeout now : Int) (st : SystemState) : SystemState :=
  (st.watched.filter (fun w => decide (timeout ≤ now - w.2))).foldl
    (fun acc w => stop_watching_folder acc w.1) st

/-- Complete teardown of session path `p`. -/
def TornDown (p : String) (st : SystemState) : Prop :=
  alget st.watched p = none ∧
    alget st.counter.counters (pathName p) = none ∧
    alget st.counter.pending_queues (pathName p) = none ∧
    p ∉ st.dirs

theorem alget_alerase_none {α : Type} (l : List (String × α)) (k p : String)
    (h : alget l p = none) : alget (alerase l k) p = none := by
  by_cases hk : k = p
  · subst hk; exact alget_alerase_self l k
  · rwa [alget_alerase_other l k p hk]

theorem stop_preserves_torn (p : String) (st : SystemState) (q : String)
    (h : TornDown p st) : TornDown p (stop_watching_folder st q) := by
  obtain ⟨h1, h2, h3, h4⟩ := h
  unfold stop_watching_folder
  by_cases hg : (alget st.watched q).isNone
  · simpa [hg] using ⟨h1, h2, h3, h4⟩
  · simp only [hg, if_neg, Bool.not_eq_true, not_false_iff]
    refine ⟨alget_alerase_none _ _ _ h1, ?_, ?_, ?_⟩
    · by_cases hn : pathName q ≠ ""
      · rw [if_pos hn]
        exact alget_alerase_none _ _ _ h2
      · rw [if_neg hn]
        exact h2
    · by_cases hn : pathName q ≠ ""
      · rw [if_pos hn]
        exact alget_alerase_none _ _ _ h3
      · rw [if_neg hn]
        exact h3
    · intro hm
      exact h4 (List.mem_of_mem_filter hm)

theorem stop_watched_other (p : String) (st : SystemState) (q : String)
    (hq : q ≠ p) :
    alget (stop_watching_folder st q).watched p = alget st.watched p := by
  unfold stop_watching_folder
  by_cases hg : (alget st.watched q).isNone
  · simp [hg]
  · simp only [hg, if_neg, not_false_iff]
    exact alget_alerase_other _ _ _ hq

theorem stop_self_torn (p : String) (st : SystemState) (t : Int)
    (hw : alget st.watched p = some t) (hn : pathName p ≠ "") :
    TornDown p (stop_watching_folder st p) := by
  unfold stop_watching_folder
  rw [hw]
  simp only [Option.isNone_some, Bool.false_eq_true, if_neg, not_false_iff]
  refine ⟨alget_alerase_self _ _, ?_, ?_, ?_⟩
  · rw [if_pos hn]
    exact alget_alerase_self _ _
  · rw [if_pos hn]
    exact alget_alerase_self _ _
  · intro hm
    have := List.of_mem_filter hm
    simp at this

theorem stopFold_torn_of_torn (p : String) (l : List (String × Int))
    (st : SystemState) (h : TornDown p st) :
    TornDown p (l.foldl (fun acc w => stop_watching_folder acc w.1) st) := by
  induction l generalizing st with
  | nil => exact h
  | cons w rest ih =>
    exact ih _ (stop_preserves_torn p st w.1 h)

theorem stopFold_torn (p : String) (t : Int) (l : List (String × Int))
    (st : SystemState) (hl : (p, t) ∈ l)
    (hnd : (l.map Prod.fst).Nodup)
    (hw : alget st.watched p = some t) (hn : pathName p ≠ "") :
    TornDown p (l.foldl (fun acc w => stop_watching_folder acc w.1) st) := by
  induction l generalizing st with
  | nil => cases hl
  | cons w rest ih =>
    rw [List.foldl_cons]
    by_cases hwp : w.1 = p
    · have hnot : ∀ t', (p, t') ∉ rest := by
        intro t' hm
        rw [List.map_cons, List.nodup_cons] at hnd
        exact hnd.1 (hwp ▸ List.mem_map_of_mem Prod.fst hm)
      rcases List.mem_cons.mp hl with he | hr
      · subst he
        exact stopFold_torn_of_torn p rest _ (stop_self_torn p st t hw hn)
      · exact absurd hr (hnot t)
    · have hr : (p, t) ∈ rest := by
        rcases List.mem_cons.mp hl with he | hr
        · exact absurd (by rw [← he]) hwp
        · exact hr
      rw [List.map_cons, List.nodup_cons] at hnd
      exact ih _ hr hnd.2 (by rw [stop_watched_other p st w.1 hwp]; exact hw)

/-- **C8.** When a watched session's age reaches the timeout, one reaper
pass releases its watch, removes its admission counter and pending queue,
and deletes its on-disk directory tree; and a round-trip artifact for
that session id arriving afterwards still relocates successfully under
the output root — relocation never consults the session directory — while
the decrement on the now-unknown id returns 0 and leaves the counter
state unchanged (a logged anomaly only). -/
theorem session_timeout_teardown (timeout now t : Int) (st : SystemState)
    (output_base processedSub sep orig : String) (p : String)
    (hnodup : (st.watched.map Prod.fst).Nodup)
    (hw : alget st.watched p = some t)
    (hage : timeout ≤ now - t)
    (hn : pathName p ≠ "")
    (hsplit : splitFirstAux sep.data []
        ((pathName p).data ++ sep.data ++ orig.data) =
        some ((pathName p).data, orig.data)) :
    TornDown p (reaper_sweep timeout now st) ∧
      process_file output_base processedSub sep
          (reaper_sweep timeout now st).counter true true
          ⟨(pathName p).data ++ sep.data ++ orig.data⟩ =
        ((reaper_sweep timeout now st).counter,
          .relocated (pathName p) orig
            [output_base, pathName p, processedSub, orig]) := by
  have hready : (p, t) ∈ st.watched.filter (fun w => decide (timeout ≤ now - w.2)) := by
    rw [List.mem_filter]
    exact ⟨alget_mem _ _ _ hw, by simpa using hage⟩
  have hnd2 : ((st.watched.filter (fun w => decide (timeout ≤ now - w.2))).map
      Prod.fst).Nodup :=
    ((List.filter_sublist st.watched).map Prod.fst).nodup hnodup
  have htorn : TornDown p (reaper_sweep timeout now st) :=
    stopFold_torn p t _ st hready hnd2 hw hn
  refine ⟨htorn, ?_⟩
  have hrel := (process_file_split_first output_base processedSub sep
    (reaper_sweep timeout now st).counter true
    ⟨(pathName p).data ++ sep.data ++ orig.data⟩).2
    (pathName p).data orig.data hsplit rfl
  rw [hrel]
  have hdec : (decrement (reaper_sweep timeout now st).counter (pathName p)).1 =
      (reaper_sweep timeout now st).counter := by
    rw [decrement_unknown _ _ htorn.2.1]
  rw [hdec]

/-- A concrete system: session `root/s1` created at time 100, with a live
admission counter of 2 and one pending item. -/
def exCounter : CounterState :=
  { threshold := 5, counters := [("s1", 2)],
    pending_queues := [("s1", [⟨"root/s1", "s1", "root/s1/a.jpg"⟩])] }

def exSystem : SystemState :=
  { watched := [("root/s1", 100)], counter := exCounter, dirs := ["root/s1"] }

/-- Witness for C8: `root/s1` is reaped at time 1300 (timeout 1200), and
the late artifact `"s1___a.jpg"` still relocates to
`out/s1/processed/a.jpg` with the counter state untouched. -/
theorem session_timeout_teardown_witness :
    TornDown "root/s1" (reaper_sweep 1200 1300 exSystem) ∧
      process_file "out" "processed" "___"
          (reaper_sweep 1200 1300 exSystem).counter true true
          ⟨(pathName "root/s1").data ++ "___".data ++ "a.jpg".data⟩ =
        ((reaper_sweep 1200 1300 exSystem).counter,
          .relocated (pathName "root/s1") "a.jpg"
            ["out", pathName "root/s1", "processed", "a.jpg"]) :=
  session_timeout_teardown 1200 1300 100 exSystem
    "out" "processed" "___" "a.jpg" "root/s1"
    (by decide) (by decide) (by decide) (by decide) (by decide)

end PhotoHaven
